import Mathlib

/-!
Verification of the Actual Budget / Xero sync add-on services.

Strings from the JavaScript source are modelled as `List Char`.  The JS string
operations used by the code are embedded as follows:

* `String.prototype.trim`      → `trimChars` (drop whitespace at both ends);
* `String.prototype.toLowerCase` → `lowerStr` (per-character ASCII lowering,
  the only case the data of this program exercises);
* `String.prototype.split(' ')`  → `splitSp` (split on every single space
  character, keeping empty pieces, as JS does);
* `Array.prototype.join(' ')`    → `joinSp`;
* `String.prototype.includes`    → `containsSub` (substring test);
* `String.prototype.startsWith('#')` → `·.head? = some '#'`.

The completion markers of the spec are whole whitespace-delimited tokens of
the free-text notes field; `tokens` computes that token list.
-/

/-- Whitespace characters recognised by the embedding of JS `trim`
(space, tab, line feed, vertical tab, form feed, carriage return). -/
def isWsChar (c : Char) : Bool :=
  c == ' ' || c == '\t' || c == '\n' || c == '\x0b' || c == '\x0c' || c == '\r'

/-- ASCII lowering of one character, as JS `toLowerCase` acts on ASCII data. -/
def lowerChar : Char → Char
  | 'A' => 'a' | 'B' => 'b' | 'C' => 'c' | 'D' => 'd' | 'E' => 'e'
  | 'F' => 'f' | 'G' => 'g' | 'H' => 'h' | 'I' => 'i' | 'J' => 'j'
  | 'K' => 'k' | 'L' => 'l' | 'M' => 'm' | 'N' => 'n' | 'O' => 'o'
  | 'P' => 'p' | 'Q' => 'q' | 'R' => 'r' | 'S' => 's' | 'T' => 't'
  | 'U' => 'u' | 'V' => 'v' | 'W' => 'w' | 'X' => 'x' | 'Y' => 'y'
  | 'Z' => 'z'
  | c => c

/-- JS `toLowerCase` on a whole string. -/
def lowerStr (s : List Char) : List Char := s.map lowerChar

/-- Right half of JS `trim`: drop trailing whitespace. -/
def trimRight (s : List Char) : List Char :=
  (s.reverse.dropWhile isWsChar).reverse

/-- JS `String.prototype.trim`: drop whitespace at both ends. -/
def trimChars (s : List Char) : List Char :=
  trimRight (s.dropWhile isWsChar)

/-- JS `hay.includes(needle)`: substring containment. -/
def containsSub (hay needle : List Char) : Bool :=
  decide (needle <:+: hay)

/-- JS `s.split(' ')`: split on every single space character, keeping empty
pieces (`"a  b".split(' ') = ["a","","b"]`, `"".split(' ') = [""]`). -/
def splitSp : List Char → List (List Char)
  | [] => [[]]
  | c :: cs =>
    if c = ' ' then [] :: splitSp cs
    else
      match splitSp cs with
      | [] => [[c]]
      | p :: ps => (c :: p) :: ps

/-- JS `arr.join(' ')`. -/
def joinSp : List (List Char) → List Char
  | [] => []
  | [p] => p
  | p :: q :: rest => p ++ ' ' :: joinSp (q :: rest)

/-- Maximal whitespace-free words of a string: the token (marker) reading of a
notes field used by the specification. `tokensAux cur s` processes `s` with the
reversed current word `cur`. -/
def tokensAux : List Char → List Char → List (List Char)
  | cur, [] => if cur = [] then [] else [cur.reverse]
  | cur, c :: cs =>
    if isWsChar c then
      if cur = [] then tokensAux [] cs else cur.reverse :: tokensAux [] cs
    else
      tokensAux (c :: cur) cs

/-- The whitespace-delimited tokens of a string. -/
def tokens (s : List Char) : List (List Char) := tokensAux [] s

/-- Shorthand for the character data of a string literal. -/
def str (s : String) : List Char := s.data

/-! ### The Actual Budget client, `services/actual.js` -/

/-- `cleanTags` of `appendTags`: `newTags.trim()`. -/
def cleanTagsOf (newTags : List Char) : List Char := trimChars newTags

/-- `newTagsArray` of `appendTags`: `cleanTags.split(' ').filter(tag =>
tag.startsWith('#'))`. -/
def newTagsArrayOf (newTags : List Char) : List (List Char) :=
  (splitSp (cleanTagsOf newTags)).filter (fun tag => decide (tag.head? = some '#'))

/-- `tagsToAdd` of `appendTags`: the new `#`-tags whose lowercased form does not
occur as a substring of the lowercased existing notes
(`!existingTagsLower.includes(tag.toLowerCase())`). -/
def tagsToAddOf (existingNotes newTags : List Char) : List (List Char) :=
  (newTagsArrayOf newTags).filter
    (fun tag => !(containsSub (lowerStr existingNotes) (lowerStr tag)))

/-- `ActualBudgetClient.appendTags(existingNotes, newTags)` — the append-only
tag merge of `services/actual.js`:

* empty/blank `newTags` → return `existingNotes` unchanged;
* empty/blank `existingNotes` → return `newTags.trim()` wholesale;
* otherwise append the space-split `#`-pieces of `newTags.trim()` whose
  lowercase form is not a substring of the lowercase notes, joined by spaces,
  after `existingNotes.trim()`, and trim the result. -/
def appendTags (existingNotes newTags : List Char) : List Char :=
  if trimChars newTags = [] then existingNotes
  else if trimChars existingNotes = [] then cleanTagsOf newTags
  else if tagsToAddOf existingNotes newTags = [] then existingNotes
  else
    trimChars
      (trimChars existingNotes ++ ' ' :: joinSp (tagsToAddOf existingNotes newTags))

/-- A transaction as stored on the ledger server; `notes` may be null. -/
structure StoredTx where
  notes : Option (List Char)
deriving DecidableEq

/-- `currentTransaction.notes || ''` of `updateTransactionNotes`. -/
def existingNotesOf (t : StoredTx) : List Char := t.notes.getD []

/-- Outcome of `updateTransactionNotes`: `success n` models `return true` with
`n` the notes payload sent by the PATCH; `failure` models a thrown error. -/
inductive UpdateResult where
  | success : List Char → UpdateResult
  | failure : UpdateResult
deriving DecidableEq

/-- `ActualBudgetClient.updateTransactionNotes`: read the current transaction
(`none` → throw), merge the tags into its notes with `appendTags`, PATCH the
merged notes, and return `true` exactly when the PATCH answers 200.
`patchStatus` gives the HTTP status the server answers for a given payload. -/
def updateTransactionNotes (currentTransaction : Option StoredTx)
    (newTags : List Char) (patchStatus : List Char → Nat) : UpdateResult :=
  match currentTransaction with
  | none => .failure
  | some tx =>
    let updatedNotes := appendTags (existingNotesOf tx) newTags
    if patchStatus updatedNotes = 200 then .success updatedNotes else .failure

/-- The tag string built by `ActualBudgetClient.addPaidTag`: the literal
`#paid #` followed by the ISO date string. -/
def addPaidTagString (dateString : List Char) : List Char :=
  str "#paid #" ++ dateString

/-- `ActualBudgetClient.addPaidTag` forwards its tag string to
`updateTransactionNotes`. -/
def addPaidTag (currentTransaction : Option StoredTx) (dateString : List Char)
    (patchStatus : List Char → Nat) : UpdateResult :=
  updateTransactionNotes currentTransaction (addPaidTagString dateString) patchStatus

/-- An API error carrying the HTTP status (`error.statusCode`). -/
structure ApiError where
  statusCode : Nat
deriving DecidableEq

/-- Errors `getTransaction` can throw: the no-budget precondition failure, or a
propagated request error. -/
inductive GetTxError where
  | noBudget : GetTxError
  | api : ApiError → GetTxError
deriving DecidableEq

/-- `ActualBudgetClient.getTransaction`: with no budget loaded it throws; on a
successful GET it returns `response.data || null`; on a request error with
status 404 it returns null; every other request error is rethrown. -/
def getTransaction (budgetId : Option (List Char))
    (resp : Except ApiError (Option StoredTx)) :
    Except GetTxError (Option StoredTx) :=
  match budgetId with
  | none => .error .noBudget
  | some _ =>
    match resp with
    | .ok d => .ok d
    | .error e => if e.statusCode = 404 then .ok none else .error (.api e)

/-- A category group (`/api/getCategoryGroups` row). -/
structure CategoryGroup where
  id : List Char
  name : List Char
deriving DecidableEq

/-- `ActualBudgetClient.findCategoryGroupByName`: `groups.find(g => g.name ===
groupName)`, i.e. the first group whose name equals the requested name under
exact case-sensitive comparison, or null. -/
def findCategoryGroupByName (groups : List CategoryGroup) (groupName : List Char) :
    Option CategoryGroup :=
  groups.find? (fun g => decide (g.name = groupName))

/-- A ledger transaction as seen by `getReconciledTransactions`; `date` is the
epoch value of `new Date(transaction.date)`. -/
structure LedgerTx where
  id : List Char
  date : Int
  cleared : Bool
  reconciled : Bool
  notes : List Char
deriving DecidableEq

/-- The per-transaction filter of `getReconciledTransactions`:
`new Date(transaction.date) >= since && (transaction.cleared === true ||
transaction.reconciled === true)`. -/
def txEligibleSince (since : Int) (t : LedgerTx) : Bool :=
  decide (since ≤ t.date) && (t.cleared || t.reconciled)

/-- `reconciledTransactions` of `getReconciledTransactions`: the filtered list. -/
def reconciledTransactionsOf (since : Int) (allTransactions : List LedgerTx) :
    List LedgerTx :=
  allTransactions.filter (txEligibleSince since)

/-- Result of `getReconciledTransactions` once `allTransactions` has been
extracted from the sync response: the filtered list is returned when nonempty,
otherwise the function falls through to `return []`. -/
def getReconciledTransactionsResult (since : Int) (allTransactions : List LedgerTx) :
    List LedgerTx :=
  let r := reconciledTransactionsOf since allTransactions
  if r.length > 0 then r else []

/-- Shapes of the `/sync/sync` response that `getReconciledTransactions`
probes: `data.transactions`, `data.data.transactions`, a bare array, any other
object shape, or a failed sync request. -/
inductive SyncData where
  | withTransactions : List LedgerTx → SyncData
  | nestedTransactions : List LedgerTx → SyncData
  | arrayData : List LedgerTx → SyncData
  | otherShape : SyncData
  | syncFailed : SyncData

/-- `allTransactions` extracted by `getReconciledTransactions` from the sync
response; unrecognised shapes and sync failures yield the empty list. -/
def extractAllTransactions : SyncData → List LedgerTx
  | .withTransactions txs => txs
  | .nestedTransactions txs => txs
  | .arrayData txs => txs
  | .otherShape => []
  | .syncFailed => []

/-- `ActualBudgetClient.getReconciledTransactions` (sync-based variant): pull
all transactions out of the sync response and keep those on or after `since`
that are cleared or reconciled. No marker/notes condition is applied. -/
def getReconciledTransactions (since : Int) (sync : SyncData) : List LedgerTx :=
  getReconciledTransactionsResult since (extractAllTransactions sync)

/-! ### The Home Assistant service, `services/home-assistant.js`, and the
`/api/sync/trigger` route of the application entry point -/

/-- Values taken by `HomeAssistantService.syncStatus`. -/
inductive SyncStatusVal where
  | idle | running | completed | errored
deriving DecidableEq

/-- The sync-relevant state of `HomeAssistantService`. -/
structure HAState where
  syncStatus : SyncStatusVal
  lastSyncTime : Option Int
  syncCount : Nat
  lastError : Option (List Char)
deriving DecidableEq

/-- Outcome of the awaited `simulateSync()` call. -/
inductive SyncOutcome where
  | ok : SyncOutcome
  | failed : List Char → SyncOutcome
deriving DecidableEq

/-- The value returned by `handleSyncTrigger`: `{success, message|error}`. -/
structure TriggerResult where
  success : Bool
  payload : List Char
deriving DecidableEq

/-- `HomeAssistantService.handleSyncTrigger`: set status to `running`, run the
sync, then either record completion (status `completed`, last-sync time `now`,
count incremented, error cleared, `{success:true}`) or record the failure
(status `error`, last error set, `{success:false}`). No check of the current
status is made before starting. -/
def handleSyncTrigger (st : HAState) (outcome : SyncOutcome) (now : Int) :
    HAState × TriggerResult :=
  match outcome with
  | .ok =>
    ({ syncStatus := .completed
       lastSyncTime := some now
       syncCount := st.syncCount + 1
       lastError := none },
     { success := true, payload := str "Sync completed successfully" })
  | .failed msg =>
    ({ st with syncStatus := .errored, lastError := some msg },
     { success := false, payload := msg })

/-- HTTP status answered by the `/api/sync/trigger` route of the entry point:
200 on `result.success`, 500 otherwise. -/
def routeSyncTriggerStatus (r : TriggerResult) : Nat :=
  if r.success then 200 else 500

/-! ### Character and trimming lemmas -/

/-- ASCII lowering does not change whether a character is whitespace. -/
theorem isWsChar_lowerChar (c : Char) : isWsChar (lowerChar c) = isWsChar c := by
  unfold lowerChar
  split <;> simp_all [isWsChar]

theorem mem_of_head?_eq_some {α : Type} {l : List α} {a : α}
    (h : l.head? = some a) : a ∈ l := by
  cases l <;> simp_all

theorem mem_of_getLast?_eq_some {α : Type} {l : List α} {a : α}
    (h : l.getLast? = some a) : a ∈ l := by
  rw [← List.head?_reverse] at h
  exact List.mem_reverse.mp (mem_of_head?_eq_some h)

theorem head?_dropWhile_not_ws {l : List Char} {c : Char}
    (h : (l.dropWhile isWsChar).head? = some c) : isWsChar c = false := by
  induction l with
  | nil => simp [List.dropWhile] at h
  | cons a t ih =>
    rw [List.dropWhile_cons] at h
    by_cases ha : isWsChar a = true
    · rw [if_pos ha] at h
      exact ih h
    · rw [if_neg ha] at h
      simp only [List.head?_cons, Option.some.injEq] at h
      subst h
      simpa using ha

theorem dropWhile_eq_self_of_head {s : List Char}
    (h : ∀ c, s.head? = some c → isWsChar c = false) :
    s.dropWhile isWsChar = s := by
  cases s with
  | nil => rfl
  | cons a t =>
    rw [List.dropWhile_cons, if_neg]
    simp [h a rfl]

theorem trimRight_prefix (s : List Char) : trimRight s <+: s := by
  have h := List.dropWhile_suffix (l := s.reverse) (p := isWsChar)
  have := List.reverse_prefix.mpr h
  simpa [trimRight] using this

theorem infix_of_trimChars (s : List Char) : trimChars s <:+: s := by
  have h1 : trimChars s <+: s.dropWhile isWsChar := trimRight_prefix _
  have h2 : s.dropWhile isWsChar <:+ s := List.dropWhile_suffix _
  exact h1.isInfix.trans h2.isInfix

theorem head?_trimChars_not_ws {s : List Char} {c : Char}
    (h : (trimChars s).head? = some c) : isWsChar c = false := by
  have hpre : trimChars s <+: s.dropWhile isWsChar := trimRight_prefix _
  obtain ⟨r, hr⟩ := hpre
  have hne : trimChars s ≠ [] := by
    intro hnil
    rw [hnil] at h
    simp at h
  have : (s.dropWhile isWsChar).head? = some c := by
    rw [← hr, List.head?_append_of_ne_nil _ hne]
    exact h
  exact head?_dropWhile_not_ws this

theorem getLast?_trimRight_not_ws {s : List Char} {c : Char}
    (h : (trimRight s).getLast? = some c) : isWsChar c = false := by
  unfold trimRight at h
  rw [List.getLast?_reverse] at h
  exact head?_dropWhile_not_ws h

theorem getLast?_trimChars_not_ws {s : List Char} {c : Char}
    (h : (trimChars s).getLast? = some c) : isWsChar c = false :=
  getLast?_trimRight_not_ws h

theorem trimRight_eq_self_of_getLast {s : List Char}
    (h : ∀ c, s.getLast? = some c → isWsChar c = false) : trimRight s = s := by
  unfold trimRight
  rw [dropWhile_eq_self_of_head, List.reverse_reverse]
  intro c hc
  rw [List.head?_reverse] at hc
  exact h c hc

theorem trimChars_eq_self {s : List Char}
    (h1 : ∀ c, s.head? = some c → isWsChar c = false)
    (h2 : ∀ c, s.getLast? = some c → isWsChar c = false) : trimChars s = s := by
  unfold trimChars
  rw [dropWhile_eq_self_of_head h1]
  exact trimRight_eq_self_of_getLast h2

theorem trimChars_idem (s : List Char) : trimChars (trimChars s) = trimChars s :=
  trimChars_eq_self (fun _ h => head?_trimChars_not_ws h)
    (fun _ h => getLast?_trimChars_not_ws h)

theorem trimRight_append {a b : List Char}
    (hb : b.reverse.dropWhile isWsChar ≠ []) :
    trimRight (a ++ b) = a ++ trimRight b := by
  unfold trimRight
  rw [List.reverse_append, List.dropWhile_append,
    if_neg (by simpa [List.isEmpty_iff] using hb), List.reverse_append,
    List.reverse_reverse]

theorem dropWhile_ne_nil_of_mem {s : List Char} {c : Char} (hc : c ∈ s)
    (hw : isWsChar c = false) : s.dropWhile isWsChar ≠ [] := by
  intro h
  rw [List.dropWhile_eq_nil_iff] at h
  have := h c hc
  simp_all

/-! ### Whitespace-free substrings survive trimming -/

theorem infix_dropWhile_of_wsFree {s m : List Char} (hne : s ≠ [])
    (hws : ∀ c ∈ s, isWsChar c = false) (h : s <:+: m) :
    s <:+: m.dropWhile isWsChar := by
  induction m with
  | nil =>
    rw [List.infix_nil] at h
    exact absurd h hne
  | cons a t ih =>
    rw [List.dropWhile_cons]
    by_cases ha : isWsChar a = true
    · rw [if_pos ha]
      rcases List.infix_cons_iff.mp h with hp | hi
      · cases s with
        | nil => exact absurd rfl hne
        | cons x xs =>
          rcases List.cons_prefix_cons.mp hp with ⟨hxa, _⟩
          subst hxa
          rw [hws x (List.mem_cons_self x xs)] at ha
          exact absurd ha (by simp)
      · exact ih hi
    · rw [if_neg ha]
      exact h

theorem infix_trimRight_of_wsFree {s m : List Char} (hne : s ≠ [])
    (hws : ∀ c ∈ s, isWsChar c = false) (h : s <:+: m) : s <:+: trimRight m := by
  have hrev : s.reverse <:+: m.reverse.dropWhile isWsChar := by
    refine infix_dropWhile_of_wsFree ?_ ?_ (List.reverse_infix.mpr h)
    · simp [hne]
    · intro c hc
      exact hws c (List.mem_reverse.mp hc)
  have : s.reverse <:+: (trimRight m).reverse := by
    unfold trimRight
    rwa [List.reverse_reverse]
  exact List.reverse_infix.mp this

theorem infix_trimChars_of_wsFree {s m : List Char} (hne : s ≠ [])
    (hws : ∀ c ∈ s, isWsChar c = false) (h : s <:+: m) : s <:+: trimChars m :=
  infix_trimRight_of_wsFree hne hws (infix_dropWhile_of_wsFree hne hws h)

/-! ### Lowercasing lemmas -/

theorem lowerStr_append (a b : List Char) :
    lowerStr (a ++ b) = lowerStr a ++ lowerStr b := by
  simp [lowerStr]

theorem lowerStr_ne_nil {s : List Char} (h : s ≠ []) : lowerStr s ≠ [] := by
  simp [lowerStr, h]

theorem lowerStr_wsFree {s : List Char} (h : ∀ c ∈ s, isWsChar c = false) :
    ∀ c ∈ lowerStr s, isWsChar c = false := by
  intro c hc
  rw [lowerStr, List.mem_map] at hc
  obtain ⟨a, ha, rfl⟩ := hc
  rw [isWsChar_lowerChar]
  exact h a ha

theorem trimChars_lowerStr (s : List Char) :
    trimChars (lowerStr s) = lowerStr (trimChars s) := by
  have hwf : (isWsChar ∘ lowerChar) = isWsChar := funext isWsChar_lowerChar
  unfold trimChars trimRight lowerStr
  rw [List.dropWhile_map, hwf, ← List.map_reverse, List.dropWhile_map, hwf,
    ← List.map_reverse]

/-! ### Token lemmas -/

theorem tokensAux_append_ws {w : Char} (hw : isWsChar w = true) :
    ∀ (a cur b : List Char),
      tokensAux cur (a ++ w :: b) = tokensAux cur a ++ tokensAux [] b := by
  intro a
  induction a with
  | nil =>
    intro cur b
    simp only [List.nil_append, tokensAux, hw, if_true]
    by_cases hc : cur = []
    · rw [if_pos hc, if_pos hc, List.nil_append]
    · rw [if_neg hc, if_neg hc]
      rfl
  | cons x a ih =>
    intro cur b
    simp only [List.cons_append, tokensAux]
    by_cases hx : isWsChar x = true
    · rw [if_pos hx, if_pos hx]
      by_cases hc : cur = []
      · rw [if_pos hc, if_pos hc]
        exact ih [] b
      · rw [if_neg hc, if_neg hc]
        simp only [List.append_eq]
        rw [ih [] b]
        rfl
    · rw [if_neg hx, if_neg hx]
      exact ih (x :: cur) b

theorem tokens_append_space (a b : List Char) :
    tokens (a ++ ' ' :: b) = tokens a ++ tokens b :=
  tokensAux_append_ws (by decide) a [] b

theorem tokensAux_nil_of_all_ws {s : List Char}
    (h : ∀ c ∈ s, isWsChar c = true) : tokensAux [] s = [] := by
  induction s with
  | nil => rfl
  | cons c cs ih =>
    simp only [tokensAux, h c (List.mem_cons_self c cs), if_true, if_pos rfl]
    exact ih fun d hd => h d (List.mem_cons_of_mem c hd)

theorem tokensAux_wsFree {w : List Char} (hw : ∀ c ∈ w, isWsChar c = false) :
    ∀ cur, tokensAux cur w =
      if cur.reverse ++ w = [] then [] else [cur.reverse ++ w] := by
  induction w with
  | nil =>
    intro cur
    simp only [tokensAux, List.append_nil]
    by_cases hc : cur = []
    · subst hc
      simp
    · rw [if_neg hc, if_neg (by simpa [List.reverse_eq_nil_iff] using hc)]
  | cons c cs ih =>
    intro cur
    have hc : isWsChar c = false := hw c (List.mem_cons_self c cs)
    simp only [tokensAux, hc]
    rw [if_neg (by simp), ih (fun d hd => hw d (List.mem_cons_of_mem c hd)) (c :: cur)]
    rw [if_neg (by simp), if_neg (by simp)]
    simp [List.reverse_cons, List.append_assoc]

theorem tokens_wsFree_word {w : List Char} (hne : w ≠ [])
    (hw : ∀ c ∈ w, isWsChar c = false) : tokens w = [w] := by
  have := tokensAux_wsFree hw []
  simpa [tokens, hne] using this

theorem tokensAux_dropWhile (s : List Char) :
    tokensAux [] (s.dropWhile isWsChar) = tokensAux [] s := by
  induction s with
  | nil => rfl
  | cons c cs ih =>
    rw [List.dropWhile_cons]
    by_cases hc : isWsChar c = true
    · rw [if_pos hc, ih]
      simp only [tokensAux, hc, if_true, if_pos rfl]
    · rw [if_neg hc]

theorem tokensAux_append_all_ws {t r : List Char}
    (h : ∀ c ∈ r, isWsChar c = true) :
    tokensAux [] (t ++ r) = tokensAux [] t := by
  cases r with
  | nil => rw [List.append_nil]
  | cons w r' =>
    rw [tokensAux_append_ws (h w (List.mem_cons_self w r')) t [] r',
      tokensAux_nil_of_all_ws fun d hd => h d (List.mem_cons_of_mem w hd),
      List.append_nil]

theorem tokens_trimChars (s : List Char) : tokens (trimChars s) = tokens s := by
  have key : ∀ x : List Char, tokensAux [] (trimRight x) = tokensAux [] x := by
    intro x
    have hx : x = trimRight x ++ (x.reverse.takeWhile isWsChar).reverse := by
      conv_lhs =>
        rw [← List.reverse_reverse x,
          ← List.takeWhile_append_dropWhile isWsChar x.reverse]
      rw [List.reverse_append]
      rfl
    conv_rhs => rw [hx]
    rw [tokensAux_append_all_ws]
    intro c hc
    exact List.mem_takeWhile_imp (List.mem_reverse.mp hc)
  show tokensAux [] (trimRight (s.dropWhile isWsChar)) = tokensAux [] s
  rw [key, tokensAux_dropWhile]

theorem tokens_nil_of_trim_nil {s : List Char} (h : trimChars s = []) :
    tokens s = [] := by
  rw [← tokens_trimChars, h]
  rfl

/-! ### Lemmas about `splitSp` and `joinSp` -/

theorem splitSp_head_prefix : ∀ s : List Char, ∃ p ps, splitSp s = p :: ps ∧ p <+: s := by
  intro s
  induction s with
  | nil => exact ⟨[], [], rfl, List.nil_prefix⟩
  | cons c cs ih =>
    by_cases hc : c = ' '
    · refine ⟨[], splitSp cs, ?_, List.nil_prefix⟩
      simp [splitSp, hc]
    · obtain ⟨p, ps, hsp, hpre⟩ := ih
      refine ⟨c :: p, ps, ?_, List.cons_prefix_cons.mpr ⟨rfl, hpre⟩⟩
      simp only [splitSp, if_neg hc, hsp]

theorem infix_of_mem_splitSp : ∀ (s : List Char) (q : List Char),
    q ∈ splitSp s → q <:+: s := by
  intro s
  induction s with
  | nil =>
    intro q hq
    simp only [splitSp, List.mem_singleton] at hq
    subst hq
    exact List.nil_infix
  | cons c cs ih =>
    intro q hq
    by_cases hc : c = ' '
    · simp only [splitSp, if_pos hc] at hq
      rcases List.mem_cons.mp hq with h | h
      · subst h
        exact List.nil_infix
      · exact List.infix_cons (ih q h)
    · obtain ⟨p, ps, hsp, hpre⟩ := splitSp_head_prefix cs
      simp only [splitSp, if_neg hc, hsp] at hq
      rcases List.mem_cons.mp hq with h | h
      · subst h
        exact (List.cons_prefix_cons.mpr ⟨rfl, hpre⟩).isInfix
      · have hq' : q ∈ splitSp cs := by
          rw [hsp]
          exact List.mem_cons_of_mem p h
        exact List.infix_cons (ih q hq')

theorem mem_splitSp_no_space : ∀ (s : List Char) (q : List Char),
    q ∈ splitSp s → ∀ c ∈ q, c ≠ ' ' := by
  intro s
  induction s with
  | nil =>
    intro q hq
    simp only [splitSp, List.mem_singleton] at hq
    subst hq
    simp
  | cons c cs ih =>
    intro q hq
    by_cases hc : c = ' '
    · simp only [splitSp, if_pos hc] at hq
      rcases List.mem_cons.mp hq with h | h
      · subst h
        simp
      · exact ih q h
    · obtain ⟨p, ps, hsp, _⟩ := splitSp_head_prefix cs
      simp only [splitSp, if_neg hc, hsp] at hq
      rcases List.mem_cons.mp hq with h | h
      · subst h
        intro d hd
        rcases List.mem_cons.mp hd with h | h
        · subst h
          exact hc
        · exact ih p (by rw [hsp]; exact List.mem_cons_self p ps) d h
      · exact ih q (by rw [hsp]; exact List.mem_cons_of_mem p h)

theorem infix_of_mem_joinSp : ∀ (l : List (List Char)) (p : List Char),
    p ∈ l → p <:+: joinSp l := by
  intro l
  induction l with
  | nil => simp
  | cons a rest ih =>
    intro p hp
    cases rest with
    | nil =>
      rw [List.mem_singleton] at hp
      subst hp
      exact List.infix_refl _
    | cons b rest' =>
      rcases List.mem_cons.mp hp with h | h
      · subst h
        show p <:+: p ++ ' ' :: joinSp (b :: rest')
        exact (List.prefix_append p _).isInfix
      · have h1 : joinSp (b :: rest') <:+ ' ' :: joinSp (b :: rest') :=
          List.suffix_cons ' ' _
        have h2 : ' ' :: joinSp (b :: rest') <:+ a ++ ' ' :: joinSp (b :: rest') :=
          List.suffix_append a _
        exact (ih p h).trans (h1.trans h2).isInfix

theorem mem_joinSp_of_mem {l : List (List Char)} {p : List Char} {c : Char}
    (hp : p ∈ l) (hc : c ∈ p) : c ∈ joinSp l :=
  (infix_of_mem_joinSp l p hp).subset hc

theorem getLast?_joinSp_not_ws : ∀ l : List (List Char), l ≠ [] →
    (∀ q ∈ l, q ≠ [] ∧ ∀ c ∈ q, isWsChar c = false) →
    ∀ c, (joinSp l).getLast? = some c → isWsChar c = false := by
  intro l
  induction l with
  | nil => exact fun h => absurd rfl h
  | cons a rest ih =>
    intro _ hq c hc
    cases rest with
    | nil =>
      exact (hq a (List.mem_cons_self a [])).2 c (mem_of_getLast?_eq_some hc)
    | cons b rest' =>
      have hjoin : joinSp (b :: rest') ≠ [] := by
        obtain ⟨p, ps, -⟩ := splitSp_head_prefix []
        cases rest' with
        | nil =>
          exact (hq b (List.mem_cons_of_mem a (List.mem_cons_self b []))).1
        | cons d rest'' => simp [joinSp]
      have hstep : (joinSp (a :: b :: rest')).getLast? =
          (joinSp (b :: rest')).getLast? := by
        show (a ++ ' ' :: joinSp (b :: rest')).getLast? = _
        rw [List.getLast?_append_of_ne_nil a (by simp),
          show (' ' :: joinSp (b :: rest') : List Char) =
            [' '] ++ joinSp (b :: rest') from rfl,
          List.getLast?_append_of_ne_nil [' '] hjoin]
      rw [hstep] at hc
      exact ih (by simp) (fun q hmem => hq q (List.mem_cons_of_mem a hmem)) c hc

theorem head?_joinSp {a : List Char} {rest : List (List Char)} (ha : a ≠ []) :
    (joinSp (a :: rest)).head? = a.head? := by
  cases rest with
  | nil => rfl
  | cons b rest' =>
    show (a ++ ' ' :: joinSp (b :: rest')).head? = a.head?
    exact List.head?_append_of_ne_nil a ha

/-! ### Structure of `appendTags` -/

theorem appendTags_of_trim_tags_nil {e t : List Char} (h : trimChars t = []) :
    appendTags e t = e := by
  unfold appendTags
  rw [if_pos h]

theorem appendTags_of_trim_notes_nil {e t : List Char} (ht : trimChars t ≠ [])
    (he : trimChars e = []) : appendTags e t = cleanTagsOf t := by
  unfold appendTags
  rw [if_neg ht, if_pos he]

theorem appendTags_of_tagsToAdd_nil {e t : List Char} (ht : trimChars t ≠ [])
    (he : trimChars e ≠ []) (h : tagsToAddOf e t = []) : appendTags e t = e := by
  unfold appendTags
  rw [if_neg ht, if_neg he, if_pos h]

theorem mem_newTagsArray {t p : List Char} (h : p ∈ newTagsArrayOf t) :
    p ∈ splitSp (trimChars t) ∧ p.head? = some '#' := by
  unfold newTagsArrayOf cleanTagsOf at h
  rw [List.mem_filter] at h
  exact ⟨h.1, by simpa using h.2⟩

theorem mem_tagsToAdd {e t p : List Char} (h : p ∈ tagsToAddOf e t) :
    p ∈ newTagsArrayOf t ∧ containsSub (lowerStr e) (lowerStr p) = false := by
  unfold tagsToAddOf at h
  rw [List.mem_filter] at h
  exact ⟨h.1, by simpa using h.2⟩

theorem mem_tagsToAdd_iff {e t p : List Char} :
    p ∈ tagsToAddOf e t ↔
      p ∈ newTagsArrayOf t ∧ ¬ lowerStr p <:+: lowerStr e := by
  unfold tagsToAddOf
  rw [List.mem_filter]
  simp [containsSub]

theorem tagsToAddOf_eq_nil_iff {e t : List Char} :
    tagsToAddOf e t = [] ↔
      ∀ p ∈ newTagsArrayOf t, lowerStr p <:+: lowerStr e := by
  unfold tagsToAddOf
  rw [List.filter_eq_nil_iff]
  simp [containsSub]

theorem newTagsArray_ne_nil {t p : List Char} (h : p ∈ newTagsArrayOf t) :
    p ≠ [] := by
  intro hnil
  subst hnil
  have := (mem_newTagsArray h).2
  simp at this

theorem hash_mem_of_mem_newTagsArray {t p : List Char}
    (h : p ∈ newTagsArrayOf t) : '#' ∈ p := by
  have hh := (mem_newTagsArray h).2
  cases p with
  | nil => simp at hh
  | cons c cs =>
    simp only [List.head?_cons, Option.some.injEq] at hh
    subst hh
    exact List.mem_cons_self _ _

theorem trimChars_append_word {a b : List Char} (hane : a ≠ [])
    (ha1 : ∀ c, a.head? = some c → isWsChar c = false)
    (hb : b.reverse.dropWhile isWsChar ≠ []) :
    trimChars (a ++ ' ' :: b) = a ++ ' ' :: trimRight b := by
  unfold trimChars
  rw [dropWhile_eq_self_of_head (fun c hc => by
    rw [List.head?_append_of_ne_nil a hane] at hc
    exact ha1 c hc)]
  rw [show a ++ ' ' :: b = (a ++ [' ']) ++ b from by simp, trimRight_append hb]
  simp

theorem appendTags_form {e t : List Char} (ht : trimChars t ≠ [])
    (he : trimChars e ≠ []) (hta : tagsToAddOf e t ≠ []) :
    appendTags e t =
      trimChars e ++ ' ' :: trimRight (joinSp (tagsToAddOf e t)) := by
  obtain ⟨p, hp⟩ := List.exists_mem_of_ne_nil _ hta
  have hhash : '#' ∈ joinSp (tagsToAddOf e t) :=
    mem_joinSp_of_mem hp (hash_mem_of_mem_newTagsArray (mem_tagsToAdd hp).1)
  have hjr : (joinSp (tagsToAddOf e t)).reverse.dropWhile isWsChar ≠ [] :=
    dropWhile_ne_nil_of_mem (List.mem_reverse.mpr hhash) (by decide)
  unfold appendTags
  rw [if_neg ht, if_neg he, if_neg hta]
  exact trimChars_append_word he (fun c hc => head?_trimChars_not_ws hc) hjr

/-! ### Claim theorems -/

/-- C9: for every transaction read, `getTransaction` returns null (and does not
throw) when the request fails with HTTP status 404, and propagates every other
request failure as an error to the caller. -/
theorem getTransaction_notFound_null (bid : List Char) (e : ApiError) :
    (e.statusCode = 404 → getTransaction (some bid) (.error e) = .ok none) ∧
    (e.statusCode ≠ 404 →
      getTransaction (some bid) (.error e) = .error (.api e)) := by
  constructor <;> intro h <;> simp [getTransaction, h]

/-- C9 witness: a 404 read yields null, a 500 read propagates. -/
theorem getTransaction_notFound_null_witness :
    getTransaction (some (str "b")) (.error ⟨404⟩) = .ok none ∧
    getTransaction (some (str "b")) (.error ⟨500⟩) = .error (.api ⟨500⟩) :=
  ⟨(getTransaction_notFound_null (str "b") ⟨404⟩).1 rfl,
   (getTransaction_notFound_null (str "b") ⟨500⟩).2 (by decide)⟩

/-- C8 counterexample: with the sync status already `running`, a second trigger
is not rejected or queued: `handleSyncTrigger` executes the sync anyway — the
run counter increments, the status advances to `completed`, and the trigger
reports success (HTTP 200 on the route). -/
theorem handleSyncTrigger_runs_while_running :
    (handleSyncTrigger ⟨.running, none, 0, none⟩ .ok 5).1.syncCount = 1 ∧
    (handleSyncTrigger ⟨.running, none, 0, none⟩ .ok 5).1.syncStatus =
      .completed ∧
    (handleSyncTrigger ⟨.running, none, 0, none⟩ .ok 5).2.success = true ∧
    routeSyncTriggerStatus
      (handleSyncTrigger ⟨.running, none, 0, none⟩ .ok 5).2 = 200 :=
  ⟨rfl, rfl, rfl, rfl⟩

/-- C8 (amended): no run lock exists: the behaviour of `handleSyncTrigger` is
independent of the current sync status, and its result reports success iff the
sync itself succeeded — there is no rejected/busy outcome, and the trigger
route answers only 200 (success) or 500 (sync failure). -/
theorem handleSyncTrigger_no_lock (st : HAState) (outcome : SyncOutcome)
    (now : Int) :
    handleSyncTrigger st outcome now =
      handleSyncTrigger { st with syncStatus := .idle } outcome now ∧
    ((handleSyncTrigger st outcome now).2.success = true ↔ outcome = .ok) ∧
    routeSyncTriggerStatus (handleSyncTrigger st outcome now).2 =
      (if outcome = .ok then 200 else 500) := by
  cases outcome <;> simp [handleSyncTrigger, routeSyncTriggerStatus]

theorem find?_eq_some_split {α : Type} {p : α → Bool} :
    ∀ {l : List α} {a : α}, l.find? p = some a →
      ∃ pre post, l = pre ++ a :: post ∧ ∀ x ∈ pre, p x = false := by
  intro l
  induction l with
  | nil =>
    intro a h
    simp at h
  | cons b bs ih =>
    intro a h
    by_cases hb : p b = true
    · rw [List.find?_cons_of_pos _ hb] at h
      obtain rfl : b = a := by simpa using h
      exact ⟨[], bs, rfl, by simp⟩
    · rw [List.find?_cons_of_neg _ hb] at h
      obtain ⟨pre, post, hsplit, hpre⟩ := ih h
      refine ⟨b :: pre, post, by rw [hsplit]; rfl, ?_⟩
      intro x hx
      rcases List.mem_cons.mp hx with rfl | hx
      · simpa using hb
      · exact hpre x hx

/-- C6 counterexample: with two groups both named `X`, the lookup does not
resolve to null; it returns the first matching group. -/
theorem findCategoryGroupByName_ambiguous_cex :
    findCategoryGroupByName
        [⟨str "1", str "X"⟩, ⟨str "2", str "X"⟩] (str "X") =
      some ⟨str "1", str "X"⟩ ∧
    findCategoryGroupByName
        [⟨str "1", str "X"⟩, ⟨str "2", str "X"⟩] (str "X") ≠ none := by
  exact ⟨by decide, by decide⟩

/-- C6 (amended): the lookup returns null iff no group name equals the
requested name (exact, case-sensitive); otherwise it returns the first
matching group, even when several groups match. -/
theorem findCategoryGroupByName_first_match (groups : List CategoryGroup)
    (groupName : List Char) :
    (findCategoryGroupByName groups groupName = none ↔
      ∀ g ∈ groups, g.name ≠ groupName) ∧
    (∀ g, findCategoryGroupByName groups groupName = some g →
      g.name = groupName ∧
      ∃ pre post, groups = pre ++ g :: post ∧ ∀ x ∈ pre, x.name ≠ groupName) := by
  constructor
  · rw [findCategoryGroupByName, List.find?_eq_none]
    simp
  · intro g hg
    refine ⟨by simpa using List.find?_some hg, ?_⟩
    obtain ⟨pre, post, hsplit, hpre⟩ := find?_eq_some_split hg
    refine ⟨pre, post, hsplit, ?_⟩
    intro x hx
    have := hpre x hx
    simpa using this

/-- C6 witness: a name matching no group resolves to null. -/
theorem findCategoryGroupByName_first_match_witness :
    findCategoryGroupByName [⟨str "1", str "A"⟩] (str "B") = none :=
  (findCategoryGroupByName_first_match [⟨str "1", str "A"⟩] (str "B")).1.mpr
    (by decide)

/-- C4 counterexample: a transaction that is cleared but not reconciled is
selected by the fetch. -/
theorem getReconciledTransactions_cleared_only_cex :
    getReconciledTransactions 0
        (.withTransactions [⟨str "t1", 5, true, false, []⟩]) =
      [⟨str "t1", 5, true, false, []⟩] ∧
    (⟨str "t1", 5, true, false, []⟩ : LedgerTx).reconciled = false := by
  exact ⟨by decide, rfl⟩

/-- C4 (amended): a transaction is selected iff it lies in the window and is
cleared OR reconciled — a disjunction, not the conjunction the claim states. -/
theorem getReconciledTransactionsResult_mem_iff (since : Int)
    (txs : List LedgerTx) (tx : LedgerTx) :
    tx ∈ getReconciledTransactionsResult since txs ↔
      tx ∈ txs ∧ since ≤ tx.date ∧
        (tx.cleared = true ∨ tx.reconciled = true) := by
  unfold getReconciledTransactionsResult reconciledTransactionsOf
  by_cases h : (txs.filter (txEligibleSince since)).length > 0
  · rw [if_pos h, List.mem_filter]
    simp [txEligibleSince]
  · rw [if_neg h]
    have hnil : txs.filter (txEligibleSince since) = [] := by
      cases hl : (txs.filter (txEligibleSince since)).length with
      | zero => exact List.eq_nil_of_length_eq_zero hl
      | succ k => exact absurd (by omega : (txs.filter (txEligibleSince since)).length > 0) h
    constructor
    · intro hm
      simp at hm
    · rintro ⟨h1, h2, h3⟩
      have : tx ∈ txs.filter (txEligibleSince since) :=
        List.mem_filter.mpr ⟨h1, by simp [txEligibleSince, h2, h3]⟩
      rw [hnil] at this
      simp at this

/-- C1 counterexample: the fetch applies no marker gate — a cleared and
reconciled transaction already carrying the posted-to-accounting marker
(`#xero`) as a whole token of its notes is selected again. -/
theorem getReconciledTransactions_selects_posted_cex :
    getReconciledTransactions 0
        (.withTransactions [⟨str "t1", 5, true, true, str "#xero"⟩]) =
      [⟨str "t1", 5, true, true, str "#xero"⟩] ∧
    str "#xero" ∈ tokens (str "#xero") := by
  exact ⟨by decide, by decide⟩

/-- C1 (amended): eligibility is independent of the notes field: however the
notes are rewritten between runs (e.g. by appending completion markers), the
fetch selects exactly the same transactions — no idempotency gate exists in
`getReconciledTransactions`. -/
theorem getReconciledTransactionsResult_ignores_notes (since : Int)
    (txs : List LedgerTx) (g : LedgerTx → List Char) :
    getReconciledTransactionsResult since
        (txs.map fun t => { t with notes := g t }) =
      (getReconciledTransactionsResult since txs).map
        fun t => { t with notes := g t } := by
  unfold getReconciledTransactionsResult reconciledTransactionsOf
  rw [List.filter_map]
  have hp : (txEligibleSince since ∘ fun t => { t with notes := g t }) =
      txEligibleSince since := by
    funext t
    rfl
  rw [hp]
  by_cases h : (txs.filter (txEligibleSince since)).length > 0
  · rw [if_pos (by simpa using h), if_pos h]
  · rw [if_neg (by simpa using h), if_neg h]
    rfl

/-- C7 counterexample: the markers produced by `addPaidTag` for posting date
2024-01-15 are the two tokens `#paid` and `#2024-01-15`; no single token of
the form `paid:<ISO-date>` is produced. -/
theorem addPaidTag_token_shape_cex :
    tokens (addPaidTagString (str "2024-01-15")) =
      [str "#paid", str "#2024-01-15"] ∧
    str "paid:2024-01-15" ∉ tokens (addPaidTagString (str "2024-01-15")) ∧
    appendTags [] (addPaidTagString (str "2024-01-15")) =
      str "#paid #2024-01-15" := by
  exact ⟨by decide, by decide, by decide⟩

/-- C7 (amended): for every nonempty whitespace-free date string `d`, the tag
string sent by `addPaidTag` tokenises to exactly the two markers `#paid` and
`#` followed by `d` — not to a single `paid:<date>` token. -/
theorem addPaidTagString_tokens (d : List Char)
    (hws : ∀ c ∈ d, isWsChar c = false) :
    tokens (addPaidTagString d) = [str "#paid", '#' :: d] := by
  have h1 : addPaidTagString d = str "#paid" ++ ' ' :: ('#' :: d) := rfl
  have h2 : tokens ('#' :: d) = ['#' :: d] := by
    apply tokens_wsFree_word (by simp)
    intro c hc
    rcases List.mem_cons.mp hc with rfl | hc
    · decide
    · exact hws c hc
  rw [h1, tokens_append_space, tokens_wsFree_word (by decide) (by decide), h2]
  rfl

/-- C7 witness: the amended shape at the date 2024-06-30. -/
theorem addPaidTagString_tokens_witness :
    tokens (addPaidTagString (str "2024-06-30")) =
      [str "#paid", '#' :: str "2024-06-30"] :=
  addPaidTagString_tokens (str "2024-06-30") (by decide)

/-- C10 counterexample: with empty existing notes, `appendTags` stores the
whole tags string, here the single token `hello` which does not start with
`#` — the notes change although no `#`-token was supplied. -/
theorem appendTags_empty_notes_cex :
    appendTags [] (str "hello") = str "hello" ∧
    str "hello" ≠ ([] : List Char) ∧
    (str "hello").head? ≠ some '#' := by
  exact ⟨by decide, by decide, by decide⟩

/-- C10 (amended): when the existing notes are nonempty after trimming, only
space-split pieces of the trimmed tags that start with `#` are ever appended;
a tags argument with no `#`-piece leaves the notes unchanged, and the update
still reports success (the PATCH carries the unchanged notes). -/
theorem appendTags_hash_only (e t : List Char) (he : trimChars e ≠ []) :
    (∀ p ∈ tagsToAddOf e t, p.head? = some '#' ∧ p ∈ splitSp (trimChars t)) ∧
    ((∀ p ∈ splitSp (trimChars t), p.head? ≠ some '#') → appendTags e t = e) ∧
    (∀ (tx : StoredTx) (patch : List Char → Nat),
      existingNotesOf tx = e →
      (∀ p ∈ splitSp (trimChars t), p.head? ≠ some '#') →
      patch e = 200 →
      updateTransactionNotes (some tx) t patch = .success e) := by
  have happ : (∀ p ∈ splitSp (trimChars t), p.head? ≠ some '#') →
      appendTags e t = e := by
    intro h
    by_cases ht : trimChars t = []
    · exact appendTags_of_trim_tags_nil ht
    · apply appendTags_of_tagsToAdd_nil ht he
      unfold tagsToAddOf newTagsArrayOf cleanTagsOf
      rw [show (splitSp (trimChars t)).filter
          (fun tag => decide (tag.head? = some '#')) = [] from
        List.filter_eq_nil_iff.mpr fun p hp => by simp [h p hp]]
      rfl
  refine ⟨?_, happ, ?_⟩
  · intro p hp
    obtain ⟨hmem, -⟩ := mem_tagsToAdd hp
    obtain ⟨hsp, hh⟩ := mem_newTagsArray hmem
    exact ⟨hh, hsp⟩
  · intro tx patch hnotes hnohash hpatch
    rw [show updateTransactionNotes (some tx) t patch =
        (if patch (appendTags (existingNotesOf tx) t) = 200 then
          UpdateResult.success (appendTags (existingNotesOf tx) t)
        else .failure) from rfl]
    rw [hnotes, happ hnohash, if_pos hpatch]

/-- C10 witness: a tags string with no `#`-token leaves nonempty notes
unchanged. -/
theorem appendTags_hash_only_witness :
    appendTags (str "note") (str "xyz") = str "note" :=
  (appendTags_hash_only (str "note") (str "xyz") (by decide)).2.1 (by decide)

/-- C2: marker monotonicity — every whole token of the existing notes is still
a token after one `appendTags` merge, after any sequence of merges, and in the
notes persisted by a successful `updateTransactionNotes`. -/
theorem appendTags_marker_monotonic :
    (∀ (e t m : List Char), m ∈ tokens e → m ∈ tokens (appendTags e t)) ∧
    (∀ (e : List Char) (ts : List (List Char)) (m : List Char),
      m ∈ tokens e → m ∈ tokens (ts.foldl appendTags e)) ∧
    (∀ (tx : StoredTx) (tags : List Char) (patch : List Char → Nat)
        (n : List Char),
      updateTransactionNotes (some tx) tags patch = .success n →
      ∀ m ∈ tokens (existingNotesOf tx), m ∈ tokens n) := by
  have hstep : ∀ (e t m : List Char), m ∈ tokens e → m ∈ tokens (appendTags e t) := by
    intro e t m hm
    by_cases ht : trimChars t = []
    · rwa [appendTags_of_trim_tags_nil ht]
    by_cases he : trimChars e = []
    · rw [tokens_nil_of_trim_nil he] at hm
      simp at hm
    by_cases hta : tagsToAddOf e t = []
    · rwa [appendTags_of_tagsToAdd_nil ht he hta]
    · rw [appendTags_form ht he hta, tokens_append_space]
      apply List.mem_append_left
      rwa [tokens_trimChars]
  refine ⟨hstep, ?_, ?_⟩
  · intro e ts
    induction ts generalizing e with
    | nil => exact fun m hm => hm
    | cons t ts ih => exact fun m hm => ih (appendTags e t) m (hstep e t m hm)
  · intro tx tags patch n h m hm
    rw [show updateTransactionNotes (some tx) tags patch =
        (if patch (appendTags (existingNotesOf tx) tags) = 200 then
          UpdateResult.success (appendTags (existingNotesOf tx) tags)
        else .failure) from rfl] at h
    split at h
    · cases h
      exact hstep _ tags m hm
    · exact absurd h (by simp)

/-- C2 witness: the `#xero` token survives appending `#paid`, a fold of two
merges, and a persisted update. -/
theorem appendTags_marker_monotonic_witness :
    str "#xero" ∈ tokens (appendTags (str "#xero") (str "#paid")) ∧
    str "#xero" ∈
      tokens ([str "#paid", str "#2024-01-15"].foldl appendTags (str "#xero")) :=
  ⟨appendTags_marker_monotonic.1 (str "#xero") (str "#paid") (str "#xero")
      (by decide),
   appendTags_marker_monotonic.2.1 (str "#xero")
      [str "#paid", str "#2024-01-15"] (str "#xero") (by decide)⟩

/-- C3 counterexample: the tag `#paid` is suppressed although no whole token
of the notes equals it (case-insensitively): it merely occurs inside the
longer token `#paidoff` — dedup is by substring, not by exact token match. -/
theorem appendTags_substring_dedup_cex :
    appendTags (str "#paidoff") (str "#paid") = str "#paidoff" ∧
    tokens (str "#paidoff") = [str "#paidoff"] ∧
    (∀ tok ∈ tokens (str "#paidoff"), lowerStr tok ≠ lowerStr (str "#paid")) := by
  exact ⟨by decide, by decide, by decide⟩

/-- C3 (amended): for notes that are nonempty after trimming, suppression is
by case-insensitive substring occurrence in the whole notes: if every
`#`-piece of the tags occurs (lowercased) as a substring of the lowercased
notes the merge is a no-op, and if some `#`-piece does not so occur the notes
strictly change. -/
theorem appendTags_substring_dedup (e t : List Char) (he : trimChars e ≠ []) :
    ((∀ p ∈ newTagsArrayOf t, lowerStr p <:+: lowerStr e) →
      appendTags e t = e) ∧
    ((∃ p ∈ newTagsArrayOf t, ¬ lowerStr p <:+: lowerStr e) →
      appendTags e t ≠ e) := by
  constructor
  · intro h
    by_cases ht : trimChars t = []
    · exact appendTags_of_trim_tags_nil ht
    · apply appendTags_of_tagsToAdd_nil ht he
      unfold tagsToAddOf
      rw [List.filter_eq_nil_iff]
      intro p hp
      simp [containsSub, h p hp]
  · rintro ⟨p, hp, hnot⟩ heq
    have hpta : p ∈ tagsToAddOf e t := mem_tagsToAdd_iff.mpr ⟨hp, hnot⟩
    have hta : tagsToAddOf e t ≠ [] := by
      intro h0
      rw [h0] at hpta
      simp at hpta
    have ht : trimChars t ≠ [] := by
      intro h0
      have hnil : newTagsArrayOf t = [] := by
        unfold newTagsArrayOf cleanTagsOf
        rw [h0]
        rfl
      rw [hnil] at hp
      simp at hp
    have hform := appendTags_form ht he hta
    have hhash : '#' ∈ joinSp (tagsToAddOf e t) :=
      mem_joinSp_of_mem hpta (hash_mem_of_mem_newTagsArray hp)
    have hjr : (joinSp (tagsToAddOf e t)).reverse.dropWhile isWsChar ≠ [] :=
      dropWhile_ne_nil_of_mem (List.mem_reverse.mpr hhash) (by decide)
    have hjrne : trimRight (joinSp (tagsToAddOf e t)) ≠ [] := by
      unfold trimRight
      simpa [List.reverse_eq_nil_iff] using hjr
    have he2 : e = trimChars e ++ ' ' ::
        trimRight (joinSp (tagsToAddOf e t)) := heq.symm.trans hform
    have hrfix : trimChars (trimChars e ++ ' ' ::
        trimRight (joinSp (tagsToAddOf e t))) =
        trimChars e ++ ' ' :: trimRight (joinSp (tagsToAddOf e t)) := by
      apply trimChars_eq_self
      · intro c hc
        rw [List.head?_append_of_ne_nil _ he] at hc
        exact head?_trimChars_not_ws hc
      · intro c hc
        rw [List.getLast?_append_of_ne_nil _ (by simp)] at hc
        rw [show (' ' :: trimRight (joinSp (tagsToAddOf e t)) : List Char) =
            [' '] ++ trimRight (joinSp (tagsToAddOf e t)) from rfl,
          List.getLast?_append_of_ne_nil _ hjrne] at hc
        exact getLast?_trimRight_not_ws hc
    have htriv : trimChars e = e := by
      calc trimChars e
          = trimChars (trimChars e ++ ' ' ::
              trimRight (joinSp (tagsToAddOf e t))) := congrArg trimChars he2
        _ = trimChars e ++ ' ' ::
              trimRight (joinSp (tagsToAddOf e t)) := hrfix
        _ = e := he2.symm
    rw [htriv] at he2
    have hlen := congrArg List.length he2
    rw [List.length_append] at hlen
    simp at hlen

/-- C3 witness: a genuinely new tag makes the merge change the notes. -/
theorem appendTags_substring_dedup_witness :
    appendTags (str "x") (str "#new") ≠ str "x" :=
  (appendTags_substring_dedup (str "x") (str "#new") (by decide)).2
    ⟨str "#new", by decide, by decide⟩

/-- C5 counterexample: with a tab inside the tags string, re-running the same
merge is not a no-op: `appendTags "x#z" "#a<tab> #z"` yields `x#z #a` (the tab
is trimmed away), and the second run appends `#a` again. -/
theorem appendTags_not_idempotent_cex :
    appendTags
        (appendTags (str "x#z") ('#' :: 'a' :: '\t' :: ' ' :: '#' :: 'z' :: []))
        ('#' :: 'a' :: '\t' :: ' ' :: '#' :: 'z' :: []) ≠
      appendTags (str "x#z") ('#' :: 'a' :: '\t' :: ' ' :: '#' :: 'z' :: []) := by
  decide

/-- C5 (amended): `appendTags` is idempotent over any existing notes whenever
the tags string contains no whitespace other than plain spaces — the
restriction forced by the tab counterexample. -/
theorem appendTags_idempotent (n t : List Char)
    (hsp : ∀ c ∈ t, isWsChar c = true → c = ' ') :
    appendTags (appendTags n t) t = appendTags n t := by
  by_cases ht : trimChars t = []
  · rw [appendTags_of_trim_tags_nil ht, appendTags_of_trim_tags_nil ht]
  have hpieces : ∀ p ∈ newTagsArrayOf t, ∀ c ∈ p, isWsChar c = false := by
    intro p hp c hc
    obtain ⟨hsp', _⟩ := mem_newTagsArray hp
    have hct : c ∈ t :=
      ((infix_of_mem_splitSp _ p hsp').trans (infix_of_trimChars t)).subset hc
    have hnsp : c ≠ ' ' := mem_splitSp_no_space _ p hsp' c hc
    by_cases hw : isWsChar c = true
    · exact absurd (hsp c hct hw) hnsp
    · simpa using hw
  by_cases hn : trimChars n = []
  · rw [appendTags_of_trim_notes_nil ht hn]
    have hr : trimChars (cleanTagsOf t) ≠ [] := by
      unfold cleanTagsOf
      rw [trimChars_idem]
      exact ht
    apply appendTags_of_tagsToAdd_nil ht hr
    unfold tagsToAddOf
    rw [List.filter_eq_nil_iff]
    intro p hp
    have hinf : lowerStr p <:+: lowerStr (cleanTagsOf t) :=
      List.IsInfix.map lowerChar (infix_of_mem_splitSp _ p (mem_newTagsArray hp).1)
    simp [containsSub, hinf]
  by_cases hta : tagsToAddOf n t = []
  · rw [appendTags_of_tagsToAdd_nil ht hn hta]
    exact appendTags_of_tagsToAdd_nil ht hn hta
  · have hwfJpieces : ∀ q ∈ tagsToAddOf n t,
        q ≠ [] ∧ ∀ c ∈ q, isWsChar c = false := fun q hq =>
      ⟨newTagsArray_ne_nil (mem_tagsToAdd hq).1,
       hpieces q (mem_tagsToAdd hq).1⟩
    have hJlast : ∀ c, (joinSp (tagsToAddOf n t)).getLast? = some c →
        isWsChar c = false :=
      getLast?_joinSp_not_ws _ hta hwfJpieces
    have hJtrim : trimRight (joinSp (tagsToAddOf n t)) =
        joinSp (tagsToAddOf n t) := trimRight_eq_self_of_getLast hJlast
    have hform := appendTags_form ht hn hta
    rw [hJtrim] at hform
    obtain ⟨q, hq⟩ := List.exists_mem_of_ne_nil _ hta
    have hJne : joinSp (tagsToAddOf n t) ≠ [] :=
      List.ne_nil_of_mem
        (mem_joinSp_of_mem hq
          (hash_mem_of_mem_newTagsArray (mem_tagsToAdd hq).1))
    have hrhead : ∀ c,
        (trimChars n ++ ' ' :: joinSp (tagsToAddOf n t)).head? = some c →
        isWsChar c = false := by
      intro c hc
      rw [List.head?_append_of_ne_nil _ hn] at hc
      exact head?_trimChars_not_ws hc
    have hrlast : ∀ c,
        (trimChars n ++ ' ' :: joinSp (tagsToAddOf n t)).getLast? = some c →
        isWsChar c = false := by
      intro c hc
      rw [List.getLast?_append_of_ne_nil _ (by simp),
        show (' ' :: joinSp (tagsToAddOf n t) : List Char) =
          [' '] ++ joinSp (tagsToAddOf n t) from rfl,
        List.getLast?_append_of_ne_nil _ hJne] at hc
      exact hJlast c hc
    have hrtrim : trimChars (trimChars n ++ ' ' :: joinSp (tagsToAddOf n t)) =
        trimChars n ++ ' ' :: joinSp (tagsToAddOf n t) :=
      trimChars_eq_self hrhead hrlast
    rw [hform]
    apply appendTags_of_tagsToAdd_nil ht (by rw [hrtrim]; simp)
    rw [tagsToAddOf_eq_nil_iff]
    intro p hp
    by_cases hsup : containsSub (lowerStr n) (lowerStr p) = true
    · have h1 : lowerStr p <:+: lowerStr n := by
        simpa [containsSub] using hsup
      have hne : lowerStr p ≠ [] := lowerStr_ne_nil (newTagsArray_ne_nil hp)
      have hwf : ∀ c ∈ lowerStr p, isWsChar c = false :=
        lowerStr_wsFree (hpieces p hp)
      have h2 : lowerStr p <:+: trimChars (lowerStr n) :=
        infix_trimChars_of_wsFree hne hwf h1
      rw [trimChars_lowerStr] at h2
      have h3 : lowerStr (trimChars n) <+:
          lowerStr (trimChars n ++ ' ' :: joinSp (tagsToAddOf n t)) := by
        rw [lowerStr_append]
        exact List.prefix_append _ _
      exact h2.trans h3.isInfix
    · have hkept : p ∈ tagsToAddOf n t := by
        unfold tagsToAddOf
        rw [List.mem_filter]
        refine ⟨hp, ?_⟩
        simpa using hsup
      have h1 : p <:+: joinSp (tagsToAddOf n t) :=
        infix_of_mem_joinSp _ p hkept
      have h2 : joinSp (tagsToAddOf n t) <:+
          trimChars n ++ ' ' :: joinSp (tagsToAddOf n t) := by
        rw [show trimChars n ++ ' ' :: joinSp (tagsToAddOf n t) =
          (trimChars n ++ [' ']) ++ joinSp (tagsToAddOf n t) from by simp]
        exact List.suffix_append _ _
      exact List.IsInfix.map lowerChar (h1.trans h2.isInfix)

/-- C5 witness: the amended idempotence at concrete space-only inputs. -/
theorem appendTags_idempotent_witness :
    appendTags (appendTags (str "a note") (str "#paid #done"))
        (str "#paid #done") =
      appendTags (str "a note") (str "#paid #done") :=
  appendTags_idempotent (str "a note") (str "#paid #done") (by decide)
